import Mathlib

/-!
Verification of the TurboSqueeze block codec and container layer.

The definitions below are a shallow embedding of the C sources:
  tsq_encode.cpp   (tsqEncodeNoext, tsqEncode)
  tsq_decode.cpp   (tsqDecodeNoext, tsqDecode)
  tsq_common.h     (tsq_init, tsq_memcpy16/32/48/64, tsq_read16)
  tsq_threads.cpp  (container header / per-block prefix writer and reader)
  turbosqueeze.h   (constants TSQ_BLOCK_SZ, TSQ_OUTPUT_SZ, TSQ_HASH_MASK)

Byte buffers are modelled as total functions Nat → Nat, read modulo 256 at
every access site (uint8_t semantics).  Machine integers are Nat with an
explicit % 2^32 wherever the C uint32_t arithmetic can wrap.  Loops become
fuel-based recursive functions; the fuel supplied at the top level strictly
dominates the number of iterations the C loops can perform, so the models
compute exactly what the C functions compute.

The decoder additionally records, as plain observations, the supremum of
input indices it reads (rmax = one past the largest index read) and of
output indices it writes (wmax); the encoder records the emitted symbol
trace.  These fields are write-only instrumentation: they never feed back
into any computation.
-/

namespace TSQ

/-- 2^32: modulus of the C uint32_t arithmetic. -/
def U32 : Nat := 4294967296

/-- TSQ_BLOCK_SZ = 1 <<< 22 (turbosqueeze.h line 38). -/
def TSQ_BLOCK_SZ : Nat := 4194304

/-- TSQ_OUTPUT_SZ = 2^22 + 2^20 (turbosqueeze.h line 39). -/
def TSQ_OUTPUT_SZ : Nat := 5242880

/-- TSQ_HASH_MASK = 2^17 - 1 (turbosqueeze.h line 43). -/
def TSQ_HASH_MASK : Nat := 131071

/-- Read one byte (uint8_t semantics) from a read-only buffer modelled as
a function. -/
def byteG (f : Nat → Nat) (i : Nat) : Nat := f i % 256

/-- A writable byte buffer: an arbitrary initial content plus a chain of
point writes and block writes (the chain representation keeps every write
a value, so both evaluation and kernel reduction stay linear). -/
inductive Buf where
  | base (f : Nat → Nat)
  | write (i v : Nat) (b : Buf)
  | win (n j : Nat) (vals : List Nat) (b : Buf)

/-- Read a raw cell of a writable buffer. -/
def Buf.get : Buf → Nat → Nat
  | .base f, x => f x
  | .write i v b, x => if x = i then v else b.get x
  | .win n j vals b, x =>
    if j ≤ x ∧ x < j + n then vals.getD (x - j) 0 else b.get x

/-- Read one byte (uint8_t semantics) of a writable buffer. -/
def Buf.byte (b : Buf) (i : Nat) : Nat := b.get i % 256

/-- Point update of a writable buffer. -/
def wr (b : Buf) (i v : Nat) : Buf := .write i v b

/-- tsq_read16: unaligned 16-bit little-endian load (tsq_common.h line 120). -/
def read16 (f : Nat → Nat) (i : Nat) : Nat :=
  byteG f i + 256 * byteG f (i + 1)

/-- Unaligned 32-bit little-endian load, = *((uint32_t*)&buf[i]). -/
def read32 (f : Nat → Nat) (i : Nat) : Nat :=
  byteG f i + 256 * byteG f (i + 1) + 65536 * byteG f (i + 2) +
    16777216 * byteG f (i + 3)

/-- Unaligned 64-bit little-endian load, = *((uint64_t*)&buf[i]). -/
def read64 (f : Nat → Nat) (i : Nat) : Nat :=
  read32 f i + 4294967296 * read32 f (i + 4)

/-- Copy n bytes from src[p..p+n) to dst[j..j+n), loading the whole source
range before storing (the 2x/4x/6x/8x u64 load-then-store bodies of
tsq_memcpy16/32/48/64 in tsq_common.h, and memcpy between the
non-overlapping ranges the codec produces). -/
def cpy (n : Nat) (src : Buf) (p : Nat) (dst : Buf) (j : Nat) : Buf :=
  .win n j ((List.range n).map fun t => src.byte (p + t)) dst

/-- Copy n bytes into dst[j..j+n) from a read-only buffer. -/
def cpyF (n : Nat) (src : Nat → Nat) (p : Nat) (dst : Buf) (j : Nat) :
    Buf :=
  .win n j ((List.range n).map fun t => byteG src (p + t)) dst

/-- tsq_init (tsq_common.h line 31): memset the whole refhash table to 0. -/
def tsq_initM (_ctx : Buf) : Buf := .base fun _ => 0

/-! ## Decoder (tsq_decode.cpp) -/

/-- Decoder running state: output buffer, read cursor i, write cursor j,
plus the two instrumentation fields rmax (one past the largest input index
read so far) and wmax (one past the largest output index written so far). -/
structure DecSt where
  out : Buf
  i : Nat
  j : Nat
  rmax : Nat
  wmax : Nat

/-- Record a read of input bytes [lo, hi). -/
def DecSt.touch (st : DecSt) (hi : Nat) : DecSt :=
  { st with rmax := max st.rmax hi }

/-- One symbol of the no-extensions fast loop (tsq_decode.cpp lines 70-79 /
80-88): tsq_read16 is evaluated unconditionally, then a single 16-byte copy
from either the input (literal) or the already-decoded output
(back-reference at pos = rep_last_j - offset). -/
def decFastSymNoext (input : Nat → Nat) (st : DecSt) (ctrl : Bool)
    (sz repLastJ : Nat) : DecSt :=
  let st := st.touch (st.i + 2)
  let pos := (repLastJ + U32 - read16 input st.i) % U32
  if ctrl then
    let st := st.touch (st.i + 16)
    { st with out := cpyF 16 input st.i st.out st.j,
              wmax := max st.wmax (st.j + 16),
              j := st.j + sz, i := st.i + sz }
  else
    { st with out := cpy 16 st.out pos st.out st.j,
              wmax := max st.wmax (st.j + 16),
              j := st.j + sz, i := st.i + 2 }

/-- One size byte and its two symbols (the body of the k-indexed for loop,
tsq_decode.cpp lines 66-89): rep_last_j is latched at the size byte and
serves both symbols of the pair. -/
def decFastPairNoext (input : Nat → Nat) (ctrlByte : Nat) (st : DecSt)
    (k : Nat) : DecSt :=
  let st := st.touch (st.i + 1)
  let sizeByte := byteG input st.i
  let st := { st with i := st.i + 1 }
  let repLastJ := st.j
  let st := decFastSymNoext input st
    (decide (ctrlByte &&& (128 >>> (2 * k)) ≠ 0)) (sizeByte / 16 + 1)
    repLastJ
  decFastSymNoext input st
    (decide (ctrlByte &&& (64 >>> (2 * k)) ≠ 0)) (sizeByte % 16 + 1)
    repLastJ

/-- One group (control byte + 4 size bytes, 8 symbols) of the
no-extensions fast loop (tsq_decode.cpp lines 60-90).  control_mask starts
at 128 and halves per symbol. -/
def decFastGroupNoext (input : Nat → Nat) (st : DecSt) : DecSt :=
  let st := st.touch (st.i + 1)
  let ctrlByte := byteG input st.i
  let st := { st with i := st.i + 1 }
  (List.range 4).foldl (decFastPairNoext input ctrlByte) st

/-- while (j < fastsize) over fast groups. -/
def decFastLoopNoext (input : Nat → Nat) (fastsize : Nat) (st : DecSt) :
    Nat → DecSt
  | 0 => st
  | fuel + 1 =>
    if decide (st.j < fastsize) then
      decFastLoopNoext input fastsize (decFastGroupNoext input st) fuel
    else st

/-- One symbol of the no-extensions slow loop (tsq_decode.cpp lines
101-121): exact-length memcpy. -/
def decSlowSymNoext (input : Nat → Nat) (st : DecSt) (ctrl : Bool)
    (sz repLastJ : Nat) : DecSt :=
  let st := st.touch (st.i + 2)
  let pos := (repLastJ + U32 - read16 input st.i) % U32
  if ctrl then
    let st := st.touch (st.i + sz)
    { st with out := cpyF sz input st.i st.out st.j,
              wmax := max st.wmax (st.j + sz),
              j := st.j + sz, i := st.i + sz }
  else
    { st with out := cpy sz st.out pos st.out st.j,
              wmax := max st.wmax (st.j + sz),
              j := st.j + sz, i := st.i + 2 }

/-- One size byte and its two slow-loop symbols (tsq_decode.cpp lines
99-122). -/
def decSlowPairNoext (input : Nat → Nat) (ctrlByte : Nat) (st : DecSt)
    (k : Nat) : DecSt :=
  let st := st.touch (st.i + 1)
  let sizeByte := byteG input st.i
  let st := { st with i := st.i + 1 }
  let repLastJ := st.j
  let st := decSlowSymNoext input st
    (decide (ctrlByte &&& (128 >>> (2 * k)) ≠ 0)) (sizeByte / 16 + 1)
    repLastJ
  decSlowSymNoext input st
    (decide (ctrlByte &&& (64 >>> (2 * k)) ≠ 0)) (sizeByte % 16 + 1)
    repLastJ

/-- One group of the no-extensions slow loop (tsq_decode.cpp lines 93-123).
All 8 symbols of the group are processed; there is no mid-group size
check in this loop. -/
def decSlowGroupNoext (input : Nat → Nat) (st : DecSt) : DecSt :=
  let st := st.touch (st.i + 1)
  let ctrlByte := byteG input st.i
  let st := { st with i := st.i + 1 }
  (List.range 4).foldl (decSlowPairNoext input ctrlByte) st

/-- while (j < size) over slow groups. -/
def decSlowLoopNoext (input : Nat → Nat) (size : Nat) (st : DecSt) :
    Nat → DecSt
  | 0 => st
  | fuel + 1 =>
    if decide (st.j < size) then
      decSlowLoopNoext input size (decSlowGroupNoext input st) fuel
    else st

/-- One symbol of the extensions fast loop (tsq_decode.cpp lines 165-193 /
198-226): literals copy 16 bytes from the input; back-references read a
16-bit offset and switch on sz, copying 32/48/64 bytes for sz = 1/2/3 and
16 bytes (sz committed) otherwise. -/
def decFastSymExt (input : Nat → Nat) (st : DecSt) (ctrl : Bool)
    (sz repLastJ : Nat) : DecSt :=
  if ctrl then
    let st := st.touch (st.i + 16)
    { st with out := cpyF 16 input st.i st.out st.j,
              wmax := max st.wmax (st.j + 16),
              j := st.j + sz, i := st.i + sz }
  else
    let st := st.touch (st.i + 2)
    let pos := (repLastJ + U32 - read16 input st.i) % U32
    match sz with
    | 1 => { st with out := cpy 32 st.out pos st.out st.j,
                     wmax := max st.wmax (st.j + 32),
                     j := st.j + 32, i := st.i + 2 }
    | 2 => { st with out := cpy 48 st.out pos st.out st.j,
                     wmax := max st.wmax (st.j + 48),
                     j := st.j + 48, i := st.i + 2 }
    | 3 => { st with out := cpy 64 st.out pos st.out st.j,
                     wmax := max st.wmax (st.j + 64),
                     j := st.j + 64, i := st.i + 2 }
    | _ => { st with out := cpy 16 st.out pos st.out st.j,
                     wmax := max st.wmax (st.j + 16),
                     j := st.j + sz, i := st.i + 2 }

/-- One size byte and its two extensions fast-loop symbols (tsq_decode.cpp
lines 161-228). -/
def decFastPairExt (input : Nat → Nat) (ctrlByte : Nat) (st : DecSt)
    (k : Nat) : DecSt :=
  let st := st.touch (st.i + 1)
  let sizeByte := byteG input st.i
  let st := { st with i := st.i + 1 }
  let repLastJ := st.j
  let st := decFastSymExt input st
    (decide (ctrlByte &&& (128 >>> (2 * k)) ≠ 0)) (sizeByte / 16 + 1)
    repLastJ
  decFastSymExt input st
    (decide (ctrlByte &&& (64 >>> (2 * k)) ≠ 0)) (sizeByte % 16 + 1)
    repLastJ

/-- One group of the extensions fast loop (tsq_decode.cpp lines 153-230). -/
def decFastGroupExt (input : Nat → Nat) (st : DecSt) : DecSt :=
  let st := st.touch (st.i + 1)
  let ctrlByte := byteG input st.i
  let st := { st with i := st.i + 1 }
  (List.range 4).foldl (decFastPairExt input ctrlByte) st

/-- while (j < fastsize) over extensions fast groups. -/
def decFastLoopExt (input : Nat → Nat) (fastsize : Nat) (st : DecSt) :
    Nat → DecSt
  | 0 => st
  | fuel + 1 =>
    if decide (st.j < fastsize) then
      decFastLoopExt input fastsize (decFastGroupExt input st) fuel
    else st

/-- One symbol of the extensions slow loop (tsq_decode.cpp lines 245-273 /
280-308): exact-length memcpy, 32/48/64 bytes for back-references with
sz = 1/2/3. -/
def decSlowSymExt (input : Nat → Nat) (st : DecSt) (ctrl : Bool)
    (sz repLastJ : Nat) : DecSt :=
  if ctrl then
    let st := st.touch (st.i + sz)
    { st with out := cpyF sz input st.i st.out st.j,
              wmax := max st.wmax (st.j + sz),
              j := st.j + sz, i := st.i + sz }
  else
    let st := st.touch (st.i + 2)
    let pos := (repLastJ + U32 - read16 input st.i) % U32
    match sz with
    | 1 => { st with out := cpy 32 st.out pos st.out st.j,
                     wmax := max st.wmax (st.j + 32),
                     j := st.j + 32, i := st.i + 2 }
    | 2 => { st with out := cpy 48 st.out pos st.out st.j,
                     wmax := max st.wmax (st.j + 48),
                     j := st.j + 48, i := st.i + 2 }
    | 3 => { st with out := cpy 64 st.out pos st.out st.j,
                     wmax := max st.wmax (st.j + 64),
                     j := st.j + 64, i := st.i + 2 }
    | _ => { st with out := cpy sz st.out pos st.out st.j,
                     wmax := max st.wmax (st.j + sz),
                     j := st.j + sz, i := st.i + 2 }

/-- The k-indexed for loop of one extensions slow group (tsq_decode.cpp
lines 239-311): after the first symbol of each pair the loop breaks as
soon as j has reached size. -/
def decSlowGroupExtPairs (input : Nat → Nat) (size : Nat) (ctrlByte : Nat)
    (st : DecSt) : Nat → DecSt
  | 0 => st
  | fuel + 1 =>
    let k := 4 - (fuel + 1)
    let st := st.touch (st.i + 1)
    let sizeByte := byteG input st.i
    let st := { st with i := st.i + 1 }
    let repLastJ := st.j
    let st := decSlowSymExt input st
      (decide (ctrlByte &&& (128 >>> (2 * k)) ≠ 0)) (sizeByte / 16 + 1)
      repLastJ
    if decide (¬ (st.j < size)) then st
    else
      let st := decSlowSymExt input st
        (decide (ctrlByte &&& (64 >>> (2 * k)) ≠ 0)) (sizeByte % 16 + 1)
        repLastJ
      decSlowGroupExtPairs input size ctrlByte st fuel

/-- One group of the extensions slow loop (tsq_decode.cpp lines 233-312). -/
def decSlowGroupExt (input : Nat → Nat) (size : Nat) (st : DecSt) : DecSt :=
  let st := st.touch (st.i + 1)
  let ctrlByte := byteG input st.i
  let st := { st with i := st.i + 1 }
  decSlowGroupExtPairs input size ctrlByte st 4

/-- while (j < size) over extensions slow groups. -/
def decSlowLoopExt (input : Nat → Nat) (size : Nat) (st : DecSt) :
    Nat → DecSt
  | 0 => st
  | fuel + 1 =>
    if decide (st.j < size) then
      decSlowLoopExt input size (decSlowGroupExt input size st) fuel
    else st

/-- Result of a decode call: output buffer, *outputSize, and the two
observation fields. -/
structure DecResult where
  out : Buf
  outputSize : Nat
  rmax : Nat
  wmax : Nat

/-- tsqDecodeNoext (tsq_decode.cpp lines 42-126).  inputSize is accepted
but, exactly as in the C code, never consulted by the decoding loops. -/
def tsqDecodeNoextM (input : Nat → Nat) (out0 : Buf)
    (_inputSize : Nat) : DecResult :=
  let size := byteG input 0 + 256 * byteG input 1 + 65536 * byteG input 2
  if decide (¬ (size ≤ TSQ_BLOCK_SZ)) then
    { out := out0, outputSize := 0, rmax := 3, wmax := 0 }
  else
    let fastsize := if decide (size > 512) then size - 256 else 0
    let st : DecSt := { out := out0, i := 3, j := 0, rmax := 3, wmax := 0 }
    let st := decFastLoopNoext input fastsize st (size + 1)
    let st := decSlowLoopNoext input size st (size + 1)
    { out := st.out, outputSize := size, rmax := st.rmax, wmax := st.wmax }

/-- The extensions body of tsqDecode (tsq_decode.cpp lines 137-315). -/
def tsqDecodeExtM (input : Nat → Nat) (out0 : Buf)
    (_inputSize : Nat) : DecResult :=
  let size := byteG input 0 + 256 * byteG input 1 + 65536 * byteG input 2
  if decide (¬ (size ≤ TSQ_BLOCK_SZ)) then
    { out := out0, outputSize := 0, rmax := 3, wmax := 0 }
  else
    let fastsize := if decide (size > 512) then size - 256 else 0
    let st : DecSt := { out := out0, i := 3, j := 0, rmax := 3, wmax := 0 }
    let st := decFastLoopExt input fastsize st (size + 1)
    let st := decSlowLoopExt input size st (size + 1)
    { out := st.out, outputSize := size, rmax := st.rmax, wmax := st.wmax }

/-- tsqDecode (tsq_decode.cpp lines 129-315): dispatch on withExtensions. -/
def tsqDecodeM (input : Nat → Nat) (out0 : Buf) (inputSize : Nat)
    (withExtensions : Bool) : DecResult :=
  if !withExtensions then tsqDecodeNoextM input out0 inputSize
  else tsqDecodeExtM input out0 inputSize

/-! ## Encoder (tsq_encode.cpp) -/

/-- mlen table (tsq_encode.cpp lines 44-45), 65 entries indexed by the raw
match length k. -/
def mlen (k : Nat) : Nat :=
  [0, 0, 0, 0, 3, 4, 5, 6, 7, 8, 9, 10, 11, 12, 13, 14, 15, 15, 15, 15, 15,
   15, 15, 15, 15, 15, 15, 15, 15, 15, 15, 15,
   0, 0, 0, 0, 0, 0, 0, 0, 0, 0, 0, 0, 0, 0, 0, 0, 1, 1, 1, 1, 1, 1, 1, 1,
   1, 1, 1, 1, 1, 1, 1, 1, 2].getD k 0

/-- stdc_trailing_zeros_ull: trailing zero count of a 64-bit value
(64 when the value is zero). -/
def tz64 (x : Nat) : Nat :=
  ((List.range 64).findIdx? fun b => x / 2 ^ b % 2 = 1).getD 64

/-- Raw match length of the no-extensions encoder (tsq_encode.cpp lines
127-138): one 64-bit XOR at i/pos, extended by a second word when the
first 8 bytes match. -/
def matchKNoext (input : Nat → Nat) (i pos : Nat) : Nat :=
  let k := tz64 (Nat.xor (read64 input i) (read64 input pos)) >>> 3
  if k = 8 then
    k + (tz64 (Nat.xor (read64 input (i + 8)) (read64 input (pos + 8))) >>> 3)
  else k

/-- The do-while of the extensions match-length computation (tsq_encode.cpp
lines 284-291): word w = 1, 2, ... while nb == 8 and k < 64. -/
def matchKExtAux (input : Nat → Nat) (i pos : Nat) :
    Nat → Nat → Nat → Nat
  | 0, _, k => k
  | fuel + 1, w, k =>
    let nb := tz64 (Nat.xor (read64 input (i + 8 * w))
      (read64 input (pos + 8 * w))) >>> 3
    let k := k + nb
    if nb = 8 && decide (k < 64) then matchKExtAux input i pos fuel (w + 1) k
    else k

/-- Raw match length of the extensions encoder (tsq_encode.cpp lines
278-292). -/
def matchKExt (input : Nat → Nat) (i pos : Nat) : Nat :=
  let k := tz64 (Nat.xor (read64 input i) (read64 input pos)) >>> 3
  if k = 8 then matchKExtAux input i pos 8 1 8 else k

/-- Input-cursor advance for an emitted back-reference of size nibble
matchlen (tsq_encode.cpp line 155 / 310):
i += matchlen < 3 ? (matchlen+2) <<< 4 : matchlen + 1. -/
def encMatchAdvance (matchlen : Nat) : Nat :=
  if matchlen < 3 then (matchlen + 2) <<< 4 else matchlen + 1

/-- An emitted symbol, recorded for observation only: a literal run of len
bytes, or a back-reference with its 16-bit offset and size nibble.  anchor
is the value of rep_last_i at emission time. -/
inductive EncSym where
  | lit (len anchor : Nat)
  | ref (off nib anchor : Nat)
deriving DecidableEq, Repr

/-- Encoder running state (the locals of tsqEncodeNoext / tsqEncode). -/
structure EncSt where
  out : Buf
  hsh : Buf
  i : Nat
  j : Nat
  lastControl : Nat
  lastSize : Nat
  repLastI : Nat
  nSym : Nat
  trace : List EncSym

/-- Hash probe (tsq_encode.cpp lines 75-81): 32-bit load at i, hash,
16-bit table entry widened back to a position in (i - 65536, i], table
updated with i, and the candidate offset rep_last_i - pos (uint32). -/
def encProbe (input : Nat → Nat) (hsh : Buf) (i repLastI : Nat) :
    (Nat × Nat × Nat) × Buf :=
  let current := read32 input i
  let currhash := Nat.xor current (current >>> 12) &&& TSQ_HASH_MASK
  let stored := hsh.get currhash % 65536
  let pos :=
    if decide (stored ≥ i % 65536) then
      (stored + i / 65536 * 65536 + U32 - 65536) % U32
    else stored + i / 65536 * 65536
  let hsh := wr hsh currhash (i % 65536)
  let offset := (repLastI + U32 - pos) % U32
  ((current, pos, offset), hsh)

/-- The scan-exit / match-continue test (tsq_encode.cpp line 101):
4 bytes at pos equal current, and (offset - 4) < 0xFFFB in uint32. -/
def encHit (input : Nat → Nat) (current pos offset : Nat) : Bool :=
  (current == read32 input pos) && decide ((offset + U32 - 4) % U32 < 65531)

/-- Emit one literal symbol (the body of the literal-output do-whiles,
tsq_encode.cpp lines 88-96): copy 16 bytes, advance by incr = min 16
(i - last_i), shift the control bit and size nibble in, and allocate new
control/size slots on the 8- and 2-symbol boundaries (rep_last_i advances
to last_i on pair completion). -/
def encEmitLit (input : Nat → Nat) (st : EncSt) (lastI iCur : Nat) :
    EncSt × Nat :=
  let incr := if decide (iCur - lastI > 16) then 16 else iCur - lastI
  let out := cpyF 16 input lastI st.out st.j
  let j := st.j + incr
  let nSym := st.nSym + 1
  let out := wr out st.lastControl ((out.byte st.lastControl * 2 + 1) % 256)
  let (lastControl, j) := if nSym % 8 = 0 then (j, j + 1) else (st.lastControl, j)
  let out := wr out st.lastSize
    ((out.byte st.lastSize * 16 + (incr - 1)) % 256)
  let (lastSize, j, repLastI) :=
    if nSym % 2 = 0 then (j, j + 1, lastI + incr) else (st.lastSize, j, st.repLastI)
  ({ st with out := out, j := j, nSym := nSym, lastControl := lastControl,
             lastSize := lastSize, repLastI := repLastI,
             trace := .lit incr st.repLastI :: st.trace },
   lastI + incr)

/-- do { emit literal } while (i - last_i > 0) (tsq_encode.cpp lines
86-98, 106-118, 237-249, 257-269). -/
def encFlushLits (input : Nat → Nat) (st : EncSt) (lastI iCur : Nat) :
    Nat → EncSt × Nat
  | 0 => (st, lastI)
  | fuel + 1 =>
    let (st, lastI) := encEmitLit input st lastI iCur
    if decide (iCur - lastI > 0) then encFlushLits input st lastI iCur fuel
    else (st, lastI)

/-- Emit one back-reference symbol (tsq_encode.cpp lines 153-160 /
308-315): two offset bytes, cursor advance by encMatchAdvance, control bit
0 and the matchlen nibble, slot allocation on boundaries (rep_last_i
advances to the new i on pair completion). -/
def encEmitRef (st : EncSt) (offset matchlen : Nat) : EncSt :=
  let out := wr st.out st.j (offset % 256)
  let out := wr out (st.j + 1) (offset / 256 % 256)
  let j := st.j + 2
  let i := st.i + encMatchAdvance matchlen
  let nSym := st.nSym + 1
  let out := wr out st.lastControl (out.byte st.lastControl * 2 % 256)
  let (lastControl, j) := if nSym % 8 = 0 then (j, j + 1) else (st.lastControl, j)
  let out := wr out st.lastSize
    ((out.byte st.lastSize * 16 + matchlen) % 256)
  let (lastSize, j, repLastI) :=
    if nSym % 2 = 0 then (j, j + 1, i) else (st.lastSize, j, st.repLastI)
  { st with out := out, i := i, j := j, nSym := nSym,
            lastControl := lastControl, lastSize := lastSize,
            repLastI := repLastI,
            trace := .ref offset matchlen st.repLastI :: st.trace }

/-- The inner scan do-while (tsq_encode.cpp lines 71-101 / 222-252):
advance i, probe, flush pending literals when the run exceeds 31, loop
while (i < size) and no acceptable hit.  Returns the state, the literal
run start, and the (current, pos, offset) triple of the last probe. -/
def encScan (input : Nat → Nat) (size : Nat) (st : EncSt) (lastI : Nat) :
    Nat → EncSt × Nat × (Nat × Nat × Nat)
  | 0 => (st, lastI, (0, 0, 0))
  | fuel + 1 =>
    let i := st.i + 1
    let (p, hsh) := encProbe input st.hsh i st.repLastI
    let st := { st with i := i, hsh := hsh }
    let (st, lastI) :=
      if decide (i - lastI > 31) then encFlushLits input st lastI i (i - lastI)
      else (st, lastI)
    if decide (i < size) && ! encHit input p.1 p.2.1 p.2.2 then
      encScan input size st lastI fuel
    else (st, lastI, p)

/-- The no-extensions match do-while (tsq_encode.cpp lines 124-171). -/
def encMatchLoopNoext (input : Nat → Nat) (size : Nat) (st : EncSt)
    (p : Nat × Nat × Nat) : Nat → EncSt
  | 0 => st
  | fuel + 1 =>
    let pos := p.2.1
    let k0 := matchKNoext input st.i pos
    let sub := (st.repLastI + U32 - pos) % U32
    let k := if decide (k0 > sub) then (sub + U32 - 1) % U32 else k0
    if decide (k < 4) then st
    else
      let matchlen := mlen k
      let offset := (st.repLastI + U32 - pos) % U32
      if decide (¬ ((offset + U32 - 4) % U32 < 65531)) then st
      else
        let st := encEmitRef st offset matchlen
        let (p2, hsh) := encProbe input st.hsh st.i st.repLastI
        let st := { st with hsh := hsh }
        if decide (st.i < (size + U32 - 5) % U32) &&
            encHit input p2.1 p2.2.1 p2.2.2 then
          encMatchLoopNoext input size st p2 fuel
        else st

/-- The extensions match do-while (tsq_encode.cpp lines 275-326); the
matchlen lookup precedes the k < 4 break, as in the source. -/
def encMatchLoopExt (input : Nat → Nat) (size : Nat) (st : EncSt)
    (p : Nat × Nat × Nat) : Nat → EncSt
  | 0 => st
  | fuel + 1 =>
    let pos := p.2.1
    let k0 := matchKExt input st.i pos
    let sub := (st.repLastI + U32 - pos) % U32
    let k := if decide (k0 > sub) then (sub + U32 - 1) % U32 else k0
    let matchlen := mlen k
    if decide (k < 4) then st
    else
      let offset := (st.repLastI + U32 - pos) % U32
      if decide (¬ ((offset + U32 - 4) % U32 < 65531)) then st
      else
        let st := encEmitRef st offset matchlen
        let (p2, hsh) := encProbe input st.hsh st.i st.repLastI
        let st := { st with hsh := hsh }
        if decide (st.i < (size + U32 - 5) % U32) &&
            encHit input p2.1 p2.2.1 p2.2.2 then
          encMatchLoopExt input size st p2 fuel
        else st

/-- The outer do-while (tsq_encode.cpp lines 67-174 / 218-329), with ext
selecting the match routine. -/
def encOuter (ext : Bool) (input : Nat → Nat) (size : Nat) (st : EncSt) :
    Nat → EncSt
  | 0 => st
  | fuel + 1 =>
    let lastI := st.i
    let (st, lastI, p) := encScan input size st lastI (size + 64)
    let st :=
      if decide (st.i - lastI > 0) then
        (encFlushLits input st lastI st.i (size + 64)).1
      else st
    if decide (¬ (st.i < size)) then st
    else
      let st :=
        if ext then encMatchLoopExt input size st p (size + 64)
        else encMatchLoopNoext input size st p (size + 64)
      if decide (st.i < size) then encOuter ext input size st fuel else st

/-- The tail padding loop (tsq_encode.cpp lines 177-187). -/
def encPad (st : EncSt) : Nat → Bool → EncSt
  | 0, _ => st
  | fuel + 1, lastSizeComplete =>
    if st.nSym % 8 = 0 then st
    else
      let out := wr st.out st.lastControl
        ((st.out.byte st.lastControl * 2 + 1) % 256)
      let (out, lastSizeComplete) :=
        if !lastSizeComplete && decide (st.nSym % 2 ≠ 0) then
          (wr out st.lastSize (out.byte st.lastSize * 16 % 256), true)
        else (out, lastSizeComplete)
      encPad { st with out := out, nSym := st.nSym + 1 } fuel lastSizeComplete

/-- Result of an encode call: output buffer, *outputSize, and the emitted
symbol trace (observation only). -/
structure EncResult where
  out : Buf
  outputSize : Nat
  trace : List EncSym

/-- Shared body of tsqEncodeNoext (tsq_encode.cpp lines 48-190) and of the
extensions branch of tsqEncode (lines 200-345): 3-byte size header, locals
i = 0, j = 3, last_control = j++, last_size = j++, then the outer loop and
the tail padding. -/
def encBody (ext : Bool) (input : Nat → Nat) (inputSize : Nat)
    (ctx : Buf) (out0 : Buf) : EncResult :=
  let size := inputSize
  let out := wr (wr (wr out0 0 (size % 256)) 1 (size / 256 % 256)) 2
    (size / 65536 % 256)
  let st : EncSt :=
    { out := out, hsh := ctx, i := 0, j := 5, lastControl := 3, lastSize := 4,
      repLastI := 0, nSym := 0, trace := [] }
  let st := encOuter ext input size st (size + 2)
  let st := encPad st 8 false
  { out := st.out, outputSize := st.j, trace := st.trace.reverse }

/-- tsqEncodeNoext (tsq_encode.cpp lines 48-190). -/
def tsqEncodeNoextM (input : Nat → Nat) (inputSize : Nat)
    (ctx : Buf) (out0 : Buf) : EncResult :=
  encBody false input inputSize ctx out0

/-- tsqEncode (tsq_encode.cpp lines 193-345): dispatch on withExtensions. -/
def tsqEncodeM (input : Nat → Nat) (inputSize : Nat) (ctx : Buf)
    (out0 : Buf) (withExtensions : Bool) : EncResult :=
  if !withExtensions then tsqEncodeNoextM input inputSize ctx out0
  else encBody true input inputSize ctx out0

/-! ## Concrete example inputs used by counterexamples and witnesses -/

/-- A list viewed as a read-only buffer (0 beyond the end). -/
def inputOfList (l : List Nat) : Nat → Nat := fun i => l.getD i 0

/-- An all-zero writable buffer. -/
def zeroBuf : Buf := .base fun _ => 0

/-- 85-byte block: 33 distinct bytes, a copy of bytes 6..13 (so a match of
length 8 is emitted at position 33, referencing position 6 and skipping
the hash probes of positions 34..40), fresh bytes, then at position 75 a
second occurrence of the 4-gram that starts at the skipped position 39. -/
def exInput : List Nat :=
  (List.range 33).map (fun i => 50 + i)
  ++ [56, 57, 58, 59, 60, 61, 62, 63]
  ++ [90, 91] ++ (List.range 32).map (fun i => 92 + i)
  ++ [62, 63, 90, 91]
  ++ [200, 201, 202, 203, 204, 205]

/-- A refhash state whose bucket 101021 (the bucket of the 4-gram at
position 39 of exInput) holds position 39; everything else zero.  A table
in this state arises from an earlier tsqEncode call with the same context,
since tsqEncode itself never resets the table. -/
def exCtx : Buf := .write 101021 39 (.base fun _ => 0)

/-- A 6-byte corrupt compressed block: 3-byte header announcing 200
decoded bytes, then a single 0xFF control byte; every byte past the
3-byte header that the decoder consumes beyond index 5 lies outside the
6-byte buffer. -/
def exCorrupt : Nat → Nat := fun i => if i < 3 then [200, 0, 0].getD i 0 else 255

/-! ## Claim theorems -/

set_option maxRecDepth 1000000

/-- C2: for every input block whose first three bytes announce (as a
little-endian 24-bit integer) an uncompressed size greater than
TSQ_BLOCK_SZ, tsqDecode — with or without extensions — sets *outputSize
to 0 and returns without reading past the 3-byte header or writing any
byte to the output buffer. -/
theorem c2_decode_rejects_oversized (input : Nat → Nat) (out0 : Buf)
    (inputSize : Nat) (ext : Bool)
    (h : TSQ_BLOCK_SZ <
      byteG input 0 + 256 * byteG input 1 + 65536 * byteG input 2) :
    tsqDecodeM input out0 inputSize ext =
      { out := out0, outputSize := 0, rmax := 3, wmax := 0 } := by
  have hn : ¬ (byteG input 0 + 256 * byteG input 1 + 65536 * byteG input 2
      ≤ TSQ_BLOCK_SZ) := by omega
  cases ext <;>
    simp [tsqDecodeM, tsqDecodeNoextM, tsqDecodeExtM, hn]

/-- Witness for C2 at the concrete all-0xFF input (announced size
0xFFFFFF > TSQ_BLOCK_SZ). -/
theorem c2_decode_rejects_oversized_witness :
    tsqDecodeM (fun _ => 255) zeroBuf 8 false =
      { out := zeroBuf, outputSize := 0, rmax := 3, wmax := 0 } :=
  c2_decode_rejects_oversized (fun _ => 255) zeroBuf 8 false (by decide)

/-- C9 counterexample: tsqEncode is not insensitive to the prior contents
of the context hash table.  On the 85-byte block exInput, encoding with a
zeroed table and encoding with a table holding one stale entry (bucket
101021 → position 39) produce different output bytes: the stale entry
makes the encoder emit a back-reference where the fresh table emits
literals, so already the first control byte (offset 3) differs. -/
theorem c9_hash_state_changes_output :
    (tsqEncodeM (inputOfList exInput) 85 zeroBuf zeroBuf false).out.byte 3 ≠
    (tsqEncodeM (inputOfList exInput) 85 exCtx zeroBuf false).out.byte 3 := by
  decide

/-- C9 amended: encode preceded by tsq_init (as the multi-threaded
pipeline always runs it, tsq_threads.cpp line 157) is a pure function of
the input block: whatever was encoded before with the same context, the
reset erases it, so two such calls agree exactly. -/
theorem c9_encode_deterministic_after_init (input : Nat → Nat)
    (inputSize : Nat) (c1 c2 : Buf) (out0 : Buf) (ext : Bool) :
    tsqEncodeM input inputSize (tsq_initM c1) out0 ext =
    tsqEncodeM input inputSize (tsq_initM c2) out0 ext := rfl

/-- C10: for inputSize = 0, tsqEncode (either extensions setting, any
context, any prior output contents) produces exactly 6 payload bytes —
3-byte header announcing size 0, one control byte, one size byte, and one
phantom 1-byte literal — and tsqDecode of that payload reports
outputSize = 0 and writes nothing, so the empty block round-trips to the
empty output. -/
theorem c10_empty_block (ext : Bool) (input : Nat → Nat)
    (ctx out0 dout : Buf) :
    (tsqEncodeM input 0 ctx out0 ext).outputSize = 6 ∧
    (tsqEncodeM input 0 ctx out0 ext).out.byte 0 = 0 ∧
    (tsqEncodeM input 0 ctx out0 ext).out.byte 1 = 0 ∧
    (tsqEncodeM input 0 ctx out0 ext).out.byte 2 = 0 ∧
    (tsqEncodeM input 0 ctx out0 ext).trace = [.lit 1 0] ∧
    tsqDecodeM (tsqEncodeM input 0 ctx out0 ext).out.get dout 6 ext =
      { out := dout, outputSize := 0, rmax := 3, wmax := 0 } := by
  cases ext <;>
    simp [tsqEncodeM, tsqEncodeNoextM, encBody, encOuter, encScan,
          encFlushLits, encEmitLit, encPad, encProbe, encHit, cpyF, wr,
          Buf.byte, Buf.get, byteG, tsqDecodeM, tsqDecodeNoextM,
          tsqDecodeExtM, decFastLoopNoext, decSlowLoopNoext, decFastLoopExt,
          decSlowLoopExt]

/-- C5: the length a back-reference size nibble denotes is the same for
the encoder and the extensions decoder.  For every nibble nib, the
decoder advances its write cursor (fast and slow loop) by
encMatchAdvance nib — that is 32/48/64 bytes for nib + 1 ∈ {1, 2, 3} and
nib + 1 ∈ 1..16 bytes otherwise — the slow loop copies exactly that many
bytes, and the encoder advances its input cursor by the same amount when
it emits a back-reference with that nibble. -/
theorem c5_dilated_lengths_agree (input : Nat → Nat) (st : DecSt)
    (r nib : Nat) (stE : EncSt) (off : Nat) :
    (decSlowSymExt input st false (nib + 1) r).j =
      st.j + encMatchAdvance nib ∧
    (decFastSymExt input st false (nib + 1) r).j =
      st.j + encMatchAdvance nib ∧
    (decSlowSymExt input st false (nib + 1) r).out =
      cpy (encMatchAdvance nib) st.out
        ((r + U32 - read16 input st.i) % U32) st.out st.j ∧
    (encEmitRef stE off nib).i = stE.i + encMatchAdvance nib ∧
    encMatchAdvance 0 = 32 ∧ encMatchAdvance 1 = 48 ∧
    encMatchAdvance 2 = 64 := by
  have hadv : ∀ n, encMatchAdvance (n + 3) = n + 4 := by
    intro n
    have : ¬ (n + 3 < 3) := by omega
    simp [encMatchAdvance, this]
  rcases nib with _ | _ | _ | n
  · exact ⟨rfl, rfl, rfl, rfl, rfl, rfl, rfl⟩
  · exact ⟨rfl, rfl, rfl, rfl, rfl, rfl, rfl⟩
  · exact ⟨rfl, rfl, rfl, rfl, rfl, rfl, rfl⟩
  · refine ⟨?_, ?_, ?_, ?_, rfl, rfl, rfl⟩ <;>
      simp [decSlowSymExt, decFastSymExt, encEmitRef, hadv, DecSt.touch]

/-- Write-cursor growth bound between two decoder states: j advances by
at most d and never retreats, and every write so far lands below
j + 16. -/
def grows (a b : DecSt) (d : Nat) : Prop :=
  a.j ≤ b.j ∧ b.j ≤ a.j + d ∧ b.wmax ≤ max a.wmax (b.j + 15)

theorem grows_refl (a : DecSt) : grows a a 0 := by
  simp [grows]

theorem grows_trans {a b c : DecSt} {d1 d2 : Nat} (h1 : grows a b d1)
    (h2 : grows b c d2) : grows a c (d1 + d2) := by
  rcases h1 with ⟨x1, x2, x3⟩
  rcases h2 with ⟨y1, y2, y3⟩
  refine ⟨by omega, by omega, by omega⟩

theorem grows_mono {a b : DecSt} {d1 d2 : Nat} (h : grows a b d1)
    (hd : d1 ≤ d2) : grows a b d2 := by
  rcases h with ⟨x1, x2, x3⟩
  exact ⟨by omega, by omega, by omega⟩

theorem grows_decFastSymNoext (input : Nat → Nat) (st : DecSt)
    (ctrl : Bool) (sz r : Nat) (h1 : 1 ≤ sz) (h16 : sz ≤ 16) :
    grows st (decFastSymNoext input st ctrl sz r) 64 := by
  simp only [decFastSymNoext, DecSt.touch, grows]
  split <;> simp <;> omega

theorem grows_decSlowSymNoext (input : Nat → Nat) (st : DecSt)
    (ctrl : Bool) (sz r : Nat) (h1 : 1 ≤ sz) (h16 : sz ≤ 16) :
    grows st (decSlowSymNoext input st ctrl sz r) 64 := by
  simp only [decSlowSymNoext, DecSt.touch, grows]
  split <;> simp <;> omega

theorem grows_decFastSymExt (input : Nat → Nat) (st : DecSt)
    (ctrl : Bool) (sz r : Nat) (h1 : 1 ≤ sz) (h16 : sz ≤ 16) :
    grows st (decFastSymExt input st ctrl sz r) 64 := by
  rcases sz with _ | _ | _ | _ | n <;>
    simp only [decFastSymExt, DecSt.touch, grows] <;>
    split <;> simp <;> omega

theorem grows_decSlowSymExt (input : Nat → Nat) (st : DecSt)
    (ctrl : Bool) (sz r : Nat) (h1 : 1 ≤ sz) (h16 : sz ≤ 16) :
    grows st (decSlowSymExt input st ctrl sz r) 64 := by
  rcases sz with _ | _ | _ | _ | n <;>
    simp only [decSlowSymExt, DecSt.touch, grows] <;>
    split <;> simp <;> omega

theorem grows_foldl (f : DecSt → Nat → DecSt) (d : Nat)
    (hf : ∀ st k, grows st (f st k) d) :
    ∀ (l : List Nat) (st : DecSt),
      grows st (l.foldl f st) (d * l.length) := by
  intro l
  induction l with
  | nil => intro st; simpa using grows_refl st
  | cons a t ih =>
    intro st
    have h1 := grows_trans (hf st a) (ih (f st a))
    simp only [List.foldl_cons, List.length_cons, Nat.mul_succ]
    exact grows_mono h1 (by omega)

theorem byteG_bounds (f : Nat → Nat) (x : Nat) :
    1 ≤ byteG f x / 16 + 1 ∧ byteG f x / 16 + 1 ≤ 16 ∧
    1 ≤ byteG f x % 16 + 1 ∧ byteG f x % 16 + 1 ≤ 16 := by
  have h : f x % 256 < 256 := Nat.mod_lt _ (by norm_num)
  simp only [byteG]
  omega

theorem grows_step0 (st : DecSt) (v : Nat) :
    grows st { st.touch v with i := st.i + 1 } 0 := by
  simp [grows, DecSt.touch]

theorem grows_decFastPairNoext (input : Nat → Nat) (c : Nat) (st : DecSt)
    (k : Nat) : grows st (decFastPairNoext input c st k) 128 := by
  have hb := byteG_bounds input st.i
  exact grows_mono
    (grows_trans (grows_step0 st (st.i + 1)) (grows_trans
      (grows_decFastSymNoext input _ _ _ _ hb.1 hb.2.1)
      (grows_decFastSymNoext input _ _ _ _ hb.2.2.1 hb.2.2.2)))
    (by omega)

theorem grows_decSlowPairNoext (input : Nat → Nat) (c : Nat) (st : DecSt)
    (k : Nat) : grows st (decSlowPairNoext input c st k) 128 := by
  have hb := byteG_bounds input st.i
  exact grows_mono
    (grows_trans (grows_step0 st (st.i + 1)) (grows_trans
      (grows_decSlowSymNoext input _ _ _ _ hb.1 hb.2.1)
      (grows_decSlowSymNoext input _ _ _ _ hb.2.2.1 hb.2.2.2)))
    (by omega)

theorem grows_decFastPairExt (input : Nat → Nat) (c : Nat) (st : DecSt)
    (k : Nat) : grows st (decFastPairExt input c st k) 128 := by
  have hb := byteG_bounds input st.i
  exact grows_mono
    (grows_trans (grows_step0 st (st.i + 1)) (grows_trans
      (grows_decFastSymExt input _ _ _ _ hb.1 hb.2.1)
      (grows_decFastSymExt input _ _ _ _ hb.2.2.1 hb.2.2.2)))
    (by omega)


theorem grows_decFastGroupNoext (input : Nat → Nat) (st : DecSt) :
    grows st (decFastGroupNoext input st) 512 := by
  exact grows_mono
    (grows_trans (grows_step0 st (st.i + 1))
      (grows_foldl _ 128 (grows_decFastPairNoext input (byteG input st.i))
        (List.range 4) _))
    (by simp)

theorem grows_decSlowGroupNoext (input : Nat → Nat) (st : DecSt) :
    grows st (decSlowGroupNoext input st) 512 := by
  exact grows_mono
    (grows_trans (grows_step0 st (st.i + 1))
      (grows_foldl _ 128 (grows_decSlowPairNoext input (byteG input st.i))
        (List.range 4) _))
    (by simp)

theorem grows_decFastGroupExt (input : Nat → Nat) (st : DecSt) :
    grows st (decFastGroupExt input st) 512 := by
  exact grows_mono
    (grows_trans (grows_step0 st (st.i + 1))
      (grows_foldl _ 128 (grows_decFastPairExt input (byteG input st.i))
        (List.range 4) _))
    (by simp)

theorem grows_decSlowGroupExtPairs (input : Nat → Nat) (size c : Nat) :
    ∀ (fuel : Nat) (st : DecSt),
      grows st (decSlowGroupExtPairs input size c st fuel) (fuel * 129) := by
  intro fuel
  induction fuel with
  | zero => intro st; exact grows_refl st
  | succ n ih =>
    intro st
    simp only [decSlowGroupExtPairs]
    have hb := byteG_bounds input st.i
    split
    · exact grows_mono
        (grows_trans (grows_step0 st (st.i + 1))
          (grows_decSlowSymExt input _ _ _ _ hb.1 hb.2.1)) (by omega)
    · exact grows_mono
        (grows_trans (grows_step0 st (st.i + 1)) (grows_trans
          (grows_decSlowSymExt input _ _ _ _ hb.1 hb.2.1)
          (grows_trans
            (grows_decSlowSymExt input _ _ _ _ hb.2.2.1 hb.2.2.2)
            (ih _))))
        (by omega)

theorem grows_decSlowGroupExt (input : Nat → Nat) (size : Nat)
    (st : DecSt) : grows st (decSlowGroupExt input size st) 516 := by
  exact grows_mono
    (grows_trans (grows_step0 st (st.i + 1))
      (grows_decSlowGroupExtPairs input size (byteG input st.i) 4 _))
    (by omega)


theorem wbound_fastLoopNoext (input : Nat → Nat) (fastsize : Nat) :
    ∀ (fuel : Nat) (st : DecSt),
      st.j ≤ (decFastLoopNoext input fastsize st fuel).j ∧
      (decFastLoopNoext input fastsize st fuel).j ≤
        max st.j (fastsize + 511) ∧
      (decFastLoopNoext input fastsize st fuel).wmax ≤
        max st.wmax ((decFastLoopNoext input fastsize st fuel).j + 15) := by
  intro fuel
  induction fuel with
  | zero =>
    intro st
    simp only [decFastLoopNoext]
    refine ⟨le_refl _, by omega, by omega⟩
  | succ n ih =>
    intro st
    simp only [decFastLoopNoext]
    split
    · rename_i hj
      simp only [decide_eq_true_eq] at hj
      have hg := grows_decFastGroupNoext input st
      rcases hg with ⟨g1, g2, g3⟩
      rcases ih (decFastGroupNoext input st) with ⟨i1, i2, i3⟩
      refine ⟨by omega, by omega, by omega⟩
    · refine ⟨le_refl _, by omega, by omega⟩

theorem wbound_slowLoopNoext (input : Nat → Nat) (size : Nat) :
    ∀ (fuel : Nat) (st : DecSt),
      st.j ≤ (decSlowLoopNoext input size st fuel).j ∧
      (decSlowLoopNoext input size st fuel).j ≤ max st.j (size + 511) ∧
      (decSlowLoopNoext input size st fuel).wmax ≤
        max st.wmax ((decSlowLoopNoext input size st fuel).j + 15) := by
  intro fuel
  induction fuel with
  | zero =>
    intro st
    simp only [decSlowLoopNoext]
    refine ⟨le_refl _, by omega, by omega⟩
  | succ n ih =>
    intro st
    simp only [decSlowLoopNoext]
    split
    · rename_i hj
      simp only [decide_eq_true_eq] at hj
      have hg := grows_decSlowGroupNoext input st
      rcases hg with ⟨g1, g2, g3⟩
      rcases ih (decSlowGroupNoext input st) with ⟨i1, i2, i3⟩
      refine ⟨by omega, by omega, by omega⟩
    · refine ⟨le_refl _, by omega, by omega⟩

theorem wbound_fastLoopExt (input : Nat → Nat) (fastsize : Nat) :
    ∀ (fuel : Nat) (st : DecSt),
      st.j ≤ (decFastLoopExt input fastsize st fuel).j ∧
      (decFastLoopExt input fastsize st fuel).j ≤
        max st.j (fastsize + 511) ∧
      (decFastLoopExt input fastsize st fuel).wmax ≤
        max st.wmax ((decFastLoopExt input fastsize st fuel).j + 15) := by
  intro fuel
  induction fuel with
  | zero =>
    intro st
    simp only [decFastLoopExt]
    refine ⟨le_refl _, by omega, by omega⟩
  | succ n ih =>
    intro st
    simp only [decFastLoopExt]
    split
    · rename_i hj
      simp only [decide_eq_true_eq] at hj
      have hg := grows_decFastGroupExt input st
      rcases hg with ⟨g1, g2, g3⟩
      rcases ih (decFastGroupExt input st) with ⟨i1, i2, i3⟩
      refine ⟨by omega, by omega, by omega⟩
    · refine ⟨le_refl _, by omega, by omega⟩

theorem wbound_slowLoopExt (input : Nat → Nat) (size : Nat) :
    ∀ (fuel : Nat) (st : DecSt),
      st.j ≤ (decSlowLoopExt input size st fuel).j ∧
      (decSlowLoopExt input size st fuel).j ≤ max st.j (size + 515) ∧
      (decSlowLoopExt input size st fuel).wmax ≤
        max st.wmax ((decSlowLoopExt input size st fuel).j + 15) := by
  intro fuel
  induction fuel with
  | zero =>
    intro st
    simp only [decSlowLoopExt]
    refine ⟨le_refl _, by omega, by omega⟩
  | succ n ih =>
    intro st
    simp only [decSlowLoopExt]
    split
    · rename_i hj
      simp only [decide_eq_true_eq] at hj
      have hg := grows_decSlowGroupExt input size st
      rcases hg with ⟨g1, g2, g3⟩
      rcases ih (decSlowGroupExt input size st) with ⟨i1, i2, i3⟩
      refine ⟨by omega, by omega, by omega⟩
    · refine ⟨le_refl _, by omega, by omega⟩

theorem tsqDecodeM_wmax_le (input : Nat → Nat) (out0 : Buf)
    (inputSize : Nat) (ext : Bool) :
    (tsqDecodeM input out0 inputSize ext).wmax ≤ TSQ_BLOCK_SZ + 530 := by
  cases ext
  · simp only [tsqDecodeM, Bool.not_false, if_pos, tsqDecodeNoextM]
    split
    · simp
    · rename_i hsz
      simp only [decide_eq_true_eq, not_not] at hsz
      set size := byteG input 0 + 256 * byteG input 1 + 65536 * byteG input 2
        with hsizedef
      set fastsize := (if decide (size > 512) = true then size - 256 else 0)
        with hfdef
      have hfle : fastsize ≤ size := by
        rw [hfdef]
        split <;> omega
      set st0 : DecSt := { out := out0, i := 3, j := 0, rmax := 3, wmax := 0 }
        with hst0
      have h1 := wbound_fastLoopNoext input fastsize (size + 1) st0
      have h2 := wbound_slowLoopNoext input size (size + 1)
        (decFastLoopNoext input fastsize st0 (size + 1))
      have hj0 : st0.j = 0 := rfl
      have hw0 : st0.wmax = 0 := rfl
      rcases h1 with ⟨a1, a2, a3⟩
      rcases h2 with ⟨b1, b2, b3⟩
      simp only [TSQ_BLOCK_SZ] at hsz ⊢
      omega
  · show (tsqDecodeExtM input out0 inputSize).wmax ≤ TSQ_BLOCK_SZ + 530
    simp only [tsqDecodeExtM]
    split
    · simp
    · rename_i hsz
      simp only [decide_eq_true_eq, not_not] at hsz
      set size := byteG input 0 + 256 * byteG input 1 + 65536 * byteG input 2
        with hsizedef
      set fastsize := (if decide (size > 512) = true then size - 256 else 0)
        with hfdef
      have hfle : fastsize ≤ size := by
        rw [hfdef]
        split <;> omega
      set st0 : DecSt := { out := out0, i := 3, j := 0, rmax := 3, wmax := 0 }
        with hst0
      have h1 := wbound_fastLoopExt input fastsize (size + 1) st0
      have h2 := wbound_slowLoopExt input size (size + 1)
        (decFastLoopExt input fastsize st0 (size + 1))
      have hj0 : st0.j = 0 := rfl
      have hw0 : st0.wmax = 0 := rfl
      rcases h1 with ⟨a1, a2, a3⟩
      rcases h2 with ⟨b1, b2, b3⟩
      simp only [TSQ_BLOCK_SZ] at hsz ⊢
      omega

theorem grows16_decFastSymNoext (input : Nat → Nat) (st : DecSt)
    (ctrl : Bool) (sz r : Nat) (h1 : 1 ≤ sz) (h16 : sz ≤ 16) :
    grows st (decFastSymNoext input st ctrl sz r) 16 := by
  simp only [decFastSymNoext, DecSt.touch, grows]
  split <;> simp <;> omega

theorem grows16_decSlowSymNoext (input : Nat → Nat) (st : DecSt)
    (ctrl : Bool) (sz r : Nat) (h1 : 1 ≤ sz) (h16 : sz ≤ 16) :
    grows st (decSlowSymNoext input st ctrl sz r) 16 := by
  simp only [decSlowSymNoext, DecSt.touch, grows]
  split <;> simp <;> omega

theorem grows32_decFastPairNoext (input : Nat → Nat) (c : Nat) (st : DecSt)
    (k : Nat) : grows st (decFastPairNoext input c st k) 32 := by
  have hb := byteG_bounds input st.i
  exact grows_mono
    (grows_trans (grows_step0 st (st.i + 1)) (grows_trans
      (grows16_decFastSymNoext input _ _ _ _ hb.1 hb.2.1)
      (grows16_decFastSymNoext input _ _ _ _ hb.2.2.1 hb.2.2.2)))
    (by omega)

theorem grows32_decSlowPairNoext (input : Nat → Nat) (c : Nat) (st : DecSt)
    (k : Nat) : grows st (decSlowPairNoext input c st k) 32 := by
  have hb := byteG_bounds input st.i
  exact grows_mono
    (grows_trans (grows_step0 st (st.i + 1)) (grows_trans
      (grows16_decSlowSymNoext input _ _ _ _ hb.1 hb.2.1)
      (grows16_decSlowSymNoext input _ _ _ _ hb.2.2.1 hb.2.2.2)))
    (by omega)

theorem grows128_decFastGroupNoext (input : Nat → Nat) (st : DecSt) :
    grows st (decFastGroupNoext input st) 128 := by
  exact grows_mono
    (grows_trans (grows_step0 st (st.i + 1))
      (grows_foldl _ 32 (grows32_decFastPairNoext input (byteG input st.i))
        (List.range 4) _))
    (by simp)

theorem grows128_decSlowGroupNoext (input : Nat → Nat) (st : DecSt) :
    grows st (decSlowGroupNoext input st) 128 := by
  exact grows_mono
    (grows_trans (grows_step0 st (st.i + 1))
      (grows_foldl _ 32 (grows32_decSlowPairNoext input (byteG input st.i))
        (List.range 4) _))
    (by simp)

theorem wbound128_fastLoopNoext (input : Nat → Nat) (fastsize : Nat) :
    ∀ (fuel : Nat) (st : DecSt),
      st.j ≤ (decFastLoopNoext input fastsize st fuel).j ∧
      (decFastLoopNoext input fastsize st fuel).j ≤
        max st.j (fastsize + 127) ∧
      (decFastLoopNoext input fastsize st fuel).wmax ≤
        max st.wmax ((decFastLoopNoext input fastsize st fuel).j + 15) := by
  intro fuel
  induction fuel with
  | zero =>
    intro st
    simp only [decFastLoopNoext]
    refine ⟨le_refl _, by omega, by omega⟩
  | succ n ih =>
    intro st
    simp only [decFastLoopNoext]
    split
    · rename_i hj
      simp only [decide_eq_true_eq] at hj
      have hg := grows128_decFastGroupNoext input st
      rcases hg with ⟨g1, g2, g3⟩
      rcases ih (decFastGroupNoext input st) with ⟨i1, i2, i3⟩
      refine ⟨by omega, by omega, by omega⟩
    · refine ⟨le_refl _, by omega, by omega⟩

theorem wbound128_slowLoopNoext (input : Nat → Nat) (size : Nat) :
    ∀ (fuel : Nat) (st : DecSt),
      st.j ≤ (decSlowLoopNoext input size st fuel).j ∧
      (decSlowLoopNoext input size st fuel).j ≤ max st.j (size + 127) ∧
      (decSlowLoopNoext input size st fuel).wmax ≤
        max st.wmax ((decSlowLoopNoext input size st fuel).j + 15) := by
  intro fuel
  induction fuel with
  | zero =>
    intro st
    simp only [decSlowLoopNoext]
    refine ⟨le_refl _, by omega, by omega⟩
  | succ n ih =>
    intro st
    simp only [decSlowLoopNoext]
    split
    · rename_i hj
      simp only [decide_eq_true_eq] at hj
      have hg := grows128_decSlowGroupNoext input st
      rcases hg with ⟨g1, g2, g3⟩
      rcases ih (decSlowGroupNoext input st) with ⟨i1, i2, i3⟩
      refine ⟨by omega, by omega, by omega⟩
    · refine ⟨le_refl _, by omega, by omega⟩

theorem tsqDecodeNoextM_wmax_tight (input : Nat → Nat) (out0 : Buf)
    (inputSize : Nat) :
    (tsqDecodeNoextM input out0 inputSize).wmax ≤ TSQ_BLOCK_SZ + 142 := by
  simp only [tsqDecodeNoextM]
  split
  · simp
  · rename_i hsz
    simp only [decide_eq_true_eq, not_not] at hsz
    set size := byteG input 0 + 256 * byteG input 1 + 65536 * byteG input 2
      with hsizedef
    set fastsize := (if decide (size > 512) = true then size - 256 else 0)
      with hfdef
    have hfle : fastsize ≤ size := by
      rw [hfdef]
      split <;> omega
    set st0 : DecSt := { out := out0, i := 3, j := 0, rmax := 3, wmax := 0 }
      with hst0
    have h1 := wbound128_fastLoopNoext input fastsize (size + 1) st0
    have h2 := wbound128_slowLoopNoext input size (size + 1)
      (decFastLoopNoext input fastsize st0 (size + 1))
    have hj0 : st0.j = 0 := rfl
    have hw0 : st0.wmax = 0 := rfl
    rcases h1 with ⟨a1, a2, a3⟩
    rcases h2 with ⟨b1, b2, b3⟩
    simp only [TSQ_BLOCK_SZ] at hsz ⊢
    omega

/-- C3 (amended): with the claimed read bound refuted, what holds of the
write side: for every input and either extensions setting every decoder
write lands below index TSQ_BLOCK_SZ + 530, and without extensions every
write lands below index 256 + TSQ_BLOCK_SZ — the size of the output
buffers the decompression workers feed to tsqDecode
(tsq_context.cpp line 236).  For the extensions decoder only the looser
bound is proved here: its fast loop can move j up to 511 bytes past
fastsize before rechecking, so TSQ_BLOCK_SZ + 530 exceeds that
allocation and containment in it is not established. -/
theorem c3_decode_write_bound (input : Nat → Nat) (out0 : Buf)
    (inputSize : Nat) (ext : Bool) :
    (tsqDecodeM input out0 inputSize ext).wmax ≤ TSQ_BLOCK_SZ + 530 ∧
    (tsqDecodeM input out0 inputSize false).wmax ≤ 256 + TSQ_BLOCK_SZ := by
  refine ⟨tsqDecodeM_wmax_le input out0 inputSize ext, ?_⟩
  have h := tsqDecodeNoextM_wmax_tight input out0 inputSize
  have he : tsqDecodeM input out0 inputSize false =
      tsqDecodeNoextM input out0 inputSize := rfl
  rw [he]
  simp only [TSQ_BLOCK_SZ] at h ⊢
  omega

/-- C3 counterexample: the decoder does not bound its reads by the
provided input size.  exCorrupt is a 6-byte buffer (≤ TSQ_OUTPUT_SZ)
whose header announces 200 decoded bytes; decoding it reads input
indices up to 268 (rmax = 269), far past the 6-byte buffer. -/
theorem c3_decode_reads_past_buffer :
    6 ≤ TSQ_OUTPUT_SZ ∧
    (tsqDecodeM exCorrupt zeroBuf 6 false).rmax = 269 ∧
    6 < (tsqDecodeM exCorrupt zeroBuf 6 false).rmax := by
  refine ⟨by decide, ?_, ?_⟩ <;> decide

/-- Well-formedness of one emitted symbol: back-references carry an
offset in [4, 65534] at least as large as the length they denote. -/
def refOK : EncSym → Prop
  | .lit _ _ => True
  | .ref off nib _ => 4 ≤ off ∧ off ≤ 65534 ∧ encMatchAdvance nib ≤ off

/-- All symbols of a trace are well-formed. -/
def refsOK (l : List EncSym) : Prop := ∀ s ∈ l, refOK s

theorem refsOK_nil : refsOK [] := by intro s hs; cases hs

theorem refsOK_cons {s : EncSym} {l : List EncSym} (hs : refOK s)
    (hl : refsOK l) : refsOK (s :: l) := by
  intro x hx
  rcases List.mem_cons.mp hx with h | h
  · exact h ▸ hs
  · exact hl x h

/-- The uint32 guard (offset - 4) < 0xFFFB pins the offset to [4, 65534]. -/
theorem guard_offset_range {x : Nat} (hx : x < U32)
    (h : (x + U32 - 4) % U32 < 65531) : 4 ≤ x ∧ x ≤ 65534 := by
  rcases le_or_lt 4 x with h4 | h4
  · have e1 : x + U32 - 4 = x - 4 + U32 := by omega
    rw [e1, Nat.add_mod_right, Nat.mod_eq_of_lt (by omega)] at h
    omega
  · rw [Nat.mod_eq_of_lt (by simp [U32] at hx ⊢; omega)] at h
    simp [U32] at h h4
    omega

/-- Every match length the mlen table can emit advances by at most k. -/
theorem adv_mlen_le {k : Nat} (h4 : 4 ≤ k) :
    encMatchAdvance (mlen k) ≤ k := by
  rcases le_or_lt k 64 with h | h
  · have hall : ∀ n < 65, 4 ≤ n → encMatchAdvance (mlen n) ≤ n := by decide
    exact hall k (by omega) h4
  · have hz : mlen k = 0 := by
      simp only [mlen]
      exact List.getD_eq_default _ _ (by simp; omega)
    rw [hz]
    simp only [encMatchAdvance]
    norm_num
    omega

theorem refsOK_emitLit (input : Nat → Nat) (st : EncSt) (lastI iCur : Nat)
    (h : refsOK st.trace) :
    refsOK (encEmitLit input st lastI iCur).1.trace := by
  simp only [encEmitLit]
  split <;> exact refsOK_cons trivial h

theorem refsOK_flushLits (input : Nat → Nat) :
    ∀ (fuel : Nat) (st : EncSt) (lastI iCur : Nat), refsOK st.trace →
      refsOK (encFlushLits input st lastI iCur fuel).1.trace := by
  intro fuel
  induction fuel with
  | zero => intro st lastI iCur h; exact h
  | succ n ih =>
    intro st lastI iCur h
    simp only [encFlushLits]
    split
    · exact ih _ _ _ (refsOK_emitLit input st lastI iCur h)
    · exact refsOK_emitLit input st lastI iCur h

theorem refsOK_emitRef (st : EncSt) (off nib : Nat)
    (hs : 4 ≤ off ∧ off ≤ 65534 ∧ encMatchAdvance nib ≤ off)
    (h : refsOK st.trace) : refsOK (encEmitRef st off nib).trace := by
  simp only [encEmitRef]
  exact refsOK_cons hs h

theorem refsOK_scan (input : Nat → Nat) (size : Nat) :
    ∀ (fuel : Nat) (st : EncSt) (lastI : Nat), refsOK st.trace →
      refsOK (encScan input size st lastI fuel).1.trace := by
  intro fuel
  induction fuel with
  | zero => intro st lastI h; exact h
  | succ n ih =>
    intro st lastI h
    simp only [encScan]
    split
    · split
      · apply ih
        apply refsOK_flushLits
        exact h
      · apply ih; exact h
    · split
      · exact refsOK_flushLits input _ _ _ _ h
      · exact h

theorem refsOK_matchLoopNoext (input : Nat → Nat) (size : Nat) :
    ∀ (fuel : Nat) (st : EncSt) (p : Nat × Nat × Nat), refsOK st.trace →
      refsOK (encMatchLoopNoext input size st p fuel).trace := by
  intro fuel
  induction fuel with
  | zero => intro st p h; exact h
  | succ n ih =>
    intro st p h
    simp only [encMatchLoopNoext, decide_eq_true_eq]
    generalize hk0 : matchKNoext input st.i p.2.1 = k0
    generalize hsubd : (st.repLastI + U32 - p.2.1) % U32 = sub
    have hsublt : sub < U32 := hsubd ▸ Nat.mod_lt _ (by simp [U32])
    by_cases hc1 : (if k0 > sub then (sub + U32 - 1) % U32 else k0) < 4
    · rw [if_pos hc1]
      exact h
    · rw [if_neg hc1]
      by_cases hc2 : ¬ ((sub + U32 - 4) % U32 < 65531)
      · rw [if_pos hc2]
        exact h
      · rw [if_neg hc2]
        rw [not_not] at hc2
        have hrange := guard_offset_range hsublt hc2
        have hadv : encMatchAdvance (mlen
            (if k0 > sub then (sub + U32 - 1) % U32 else k0)) ≤ sub := by
          have h1 := adv_mlen_le
            (k := if k0 > sub then (sub + U32 - 1) % U32 else k0)
            (by omega)
          have h2 : (if k0 > sub then (sub + U32 - 1) % U32 else k0) ≤
              sub := by
            split
            · have e1 : sub + U32 - 1 = sub - 1 + U32 := by omega
              rw [e1, Nat.add_mod_right, Nat.mod_eq_of_lt (by omega)]
              omega
            · omega
          omega
        have hemit := refsOK_emitRef st sub _ ⟨hrange.1, hrange.2, hadv⟩ h
        have hfin : ∀ (c : Prop) (inst : Decidable c) (st2 : EncSt)
            (p2 : Nat × Nat × Nat), refsOK st2.trace →
            refsOK (@ite _ c inst
              (encMatchLoopNoext input size st2 p2 n) st2).trace := by
          intro c inst st2 p2 h2
          split
          · exact ih _ _ h2
          · exact h2
        simp only [encProbe]
        exact hfin _ _ _ _ hemit

theorem refsOK_matchLoopExt (input : Nat → Nat) (size : Nat) :
    ∀ (fuel : Nat) (st : EncSt) (p : Nat × Nat × Nat), refsOK st.trace →
      refsOK (encMatchLoopExt input size st p fuel).trace := by
  intro fuel
  induction fuel with
  | zero => intro st p h; exact h
  | succ n ih =>
    intro st p h
    simp only [encMatchLoopExt, decide_eq_true_eq]
    generalize hk0 : matchKExt input st.i p.2.1 = k0
    generalize hsubd : (st.repLastI + U32 - p.2.1) % U32 = sub
    have hsublt : sub < U32 := hsubd ▸ Nat.mod_lt _ (by simp [U32])
    by_cases hc1 : (if k0 > sub then (sub + U32 - 1) % U32 else k0) < 4
    · rw [if_pos hc1]
      exact h
    · rw [if_neg hc1]
      by_cases hc2 : ¬ ((sub + U32 - 4) % U32 < 65531)
      · rw [if_pos hc2]
        exact h
      · rw [if_neg hc2]
        rw [not_not] at hc2
        have hrange := guard_offset_range hsublt hc2
        have hadv : encMatchAdvance (mlen
            (if k0 > sub then (sub + U32 - 1) % U32 else k0)) ≤ sub := by
          have h1 := adv_mlen_le
            (k := if k0 > sub then (sub + U32 - 1) % U32 else k0)
            (by omega)
          have h2 : (if k0 > sub then (sub + U32 - 1) % U32 else k0) ≤
              sub := by
            split
            · have e1 : sub + U32 - 1 = sub - 1 + U32 := by omega
              rw [e1, Nat.add_mod_right, Nat.mod_eq_of_lt (by omega)]
              omega
            · omega
          omega
        have hemit := refsOK_emitRef st sub _ ⟨hrange.1, hrange.2, hadv⟩ h
        have hfin : ∀ (c : Prop) (inst : Decidable c) (st2 : EncSt)
            (p2 : Nat × Nat × Nat), refsOK st2.trace →
            refsOK (@ite _ c inst
              (encMatchLoopExt input size st2 p2 n) st2).trace := by
          intro c inst st2 p2 h2
          split
          · exact ih _ _ h2
          · exact h2
        simp only [encProbe]
        exact hfin _ _ _ _ hemit

theorem encPad_trace : ∀ (fuel : Nat) (st : EncSt) (b : Bool),
    (encPad st fuel b).trace = st.trace := by
  intro fuel
  induction fuel with
  | zero => intro st b; rfl
  | succ n ih =>
    intro st b
    simp only [encPad]
    split
    · rfl
    · split <;> exact ih _ _

theorem refsOK_outer (ext : Bool) (input : Nat → Nat) (size : Nat) :
    ∀ (fuel : Nat) (st : EncSt), refsOK st.trace →
      refsOK (encOuter ext input size st fuel).trace := by
  intro fuel
  induction fuel with
  | zero => intro st h; exact h
  | succ n ih =>
    intro st h
    simp only [encOuter]
    rcases hE : encScan input size st st.i (size + 64) with ⟨st1, lastI1, p1⟩
    have h1 : refsOK st1.trace := by
      have hsc := refsOK_scan input size (size + 64) st st.i h
      rw [hE] at hsc
      exact hsc
    have hcont : ∀ (st2 : EncSt) (p2 : Nat × Nat × Nat), refsOK st2.trace →
        refsOK (if decide (¬ st2.i < size) = true then st2
          else if decide ((if ext = true then
                encMatchLoopExt input size st2 p2 (size + 64)
              else encMatchLoopNoext input size st2 p2 (size + 64)).i <
                size) = true then
            encOuter ext input size (if ext = true then
                encMatchLoopExt input size st2 p2 (size + 64)
              else encMatchLoopNoext input size st2 p2 (size + 64)) n
          else (if ext = true then
              encMatchLoopExt input size st2 p2 (size + 64)
            else encMatchLoopNoext input size st2 p2 (size + 64))).trace := by
      intro st2 p2 h2
      split
      · exact h2
      · split
        · have h3 := refsOK_matchLoopExt input size (size + 64) st2 p2 h2
          split
          · exact ih _ h3
          · exact h3
        · have h3 := refsOK_matchLoopNoext input size (size + 64) st2 p2 h2
          split
          · exact ih _ h3
          · exact h3
    split
    · exact hcont _ _ (refsOK_flushLits input _ _ _ _ h1)
    · exact hcont _ _ h1

/-- C6 amended: every back-reference tsqEncode emits has an offset in
[4, 65534] measured from its anchor, and the length the size nibble
denotes never exceeds the offset, so the referenced range
[anchor − offset, anchor − offset + length) ends at or before the anchor
(weakly — equality is allowed; neither the interval [1, 65531] nor the
strict form of the original claim holds). -/
theorem c6_emitted_refs_bounded (ext : Bool) (input : Nat → Nat)
    (inputSize : Nat) (ctx out0 : Buf) (off nib a : Nat)
    (hmem : EncSym.ref off nib a ∈
      (tsqEncodeM input inputSize ctx out0 ext).trace) :
    4 ≤ off ∧ off ≤ 65534 ∧ encMatchAdvance nib ≤ off := by
  have hbody : ∀ e : Bool,
      refsOK (encBody e input inputSize ctx out0).trace := by
    intro e
    simp only [encBody, encPad_trace]
    intro s hs
    rw [List.mem_reverse] at hs
    exact refsOK_outer e input inputSize _ _ refsOK_nil s hs
  have hok : refsOK (tsqEncodeM input inputSize ctx out0 ext).trace := by
    cases ext <;>
      simpa [tsqEncodeM, tsqEncodeNoextM] using hbody _
  exact hok _ hmem

/-- Witness for the amended C6 at the back-reference
(offset 26, nibble 7, anchor 32) emitted while encoding exInput. -/
theorem c6_emitted_refs_bounded_witness :
    4 ≤ 26 ∧ 26 ≤ 65534 ∧ encMatchAdvance 7 ≤ 26 :=
  c6_emitted_refs_bounded false (inputOfList exInput) 85 zeroBuf zeroBuf
    26 7 32 (by decide)

/-- C6 counterexample: the claimed emission invariant
"offset ∈ [1, 65531] and anchor − position + length < anchor" fails on
the code: encoding exInput with a zeroed context emits the
back-reference (offset 26, nibble 7, anchor 32), whose length
encMatchAdvance 7 = 8 gives anchor − position + length = offset + length
= 34, which is not < anchor = 32 (the referenced range ends weakly at
the anchor region, not strictly before in the claimed sense). -/
theorem c6_emission_invariant_fails :
    EncSym.ref 26 7 32 ∈
      (tsqEncodeM (inputOfList exInput) 85 zeroBuf zeroBuf false).trace ∧
    ¬ (26 + encMatchAdvance 7 < 32) := by
  exact ⟨by decide, by decide⟩

/-! ## Container layout (tsq_threads.cpp) -/

/-- Little-endian byte expansion of width w, as memcpy of a w-byte
little-endian integer lays it out (tsq_threads.cpp lines 290-291). -/
def leBytes : Nat → Nat → List Nat
  | 0, _ => []
  | w + 1, v => v % 256 :: leBytes w (v / 256)

/-- Value of a little-endian byte list, as memcpy into a wider integer
reads it back (tsq_threads.cpp lines 761-762). -/
def leVal : List Nat → Nat
  | [] => 0
  | b :: rest => b % 256 + 256 * leVal rest

/-- n_blocks (tsq_threads.cpp line 235): size_t arithmetic truncated into
the uint32_t n_blocks. -/
def tsqNBlocks (inputSize : Nat) : Nat :=
  ((if inputSize % TSQ_BLOCK_SZ ≠ 0 then 1 else 0) + inputSize / TSQ_BLOCK_SZ)
    % U32

/-- The 3-byte block size header the compression writer emits
(tsq_threads.cpp lines 311-330): bits 0..22 the compressed size, bit 23
the extensions flag. -/
def blockHeader3 (size : Nat) (ext : Bool) : List Nat :=
  let outmask := if ext then size ||| 8388608 else size
  [outmask % 256, outmask / 256 % 256, outmask / 65536 % 256]

/-- The block stream of the compression writer's per-block loop
(tsq_threads.cpp lines 296-334, memory branch): each block's 3-byte size
header followed by exactly its payload bytes. -/
def writeBlocks : List (List Nat × Bool) → List Nat
  | [] => []
  | (payload, ext) :: rest =>
      blockHeader3 payload.length ext ++ payload ++ writeBlocks rest

/-- The whole container the compression writer emits (tsq_threads.cpp
lines 283-334): magic "TSQ1", 4-byte little-endian block count, 8-byte
little-endian original size, then the blocks. -/
def writeContainer (inputSize : Nat) (blocks : List (List Nat × Bool)) :
    List Nat :=
  [84, 83, 81, 49] ++ leBytes 4 (tsqNBlocks inputSize) ++
    leBytes 8 inputSize ++ writeBlocks blocks

/-- The decompression reader's header parse (tsq_threads.cpp lines
708-763, memory branch): fail when fewer than 16 bytes or the magic
mismatches, else return the block count, the original size and the rest. -/
def readContainerHeader : List Nat → Option (Nat × Nat × List Nat)
  | m0 :: m1 :: m2 :: m3 :: b0 :: b1 :: b2 :: b3 ::
      s0 :: s1 :: s2 :: s3 :: s4 :: s5 :: s6 :: s7 :: rest =>
      if [m0 % 256, m1 % 256, m2 % 256, m3 % 256] = [84, 83, 81, 49] then
        some (leVal [b0, b1, b2, b3],
          leVal [s0, s1, s2, s3, s4, s5, s6, s7], rest)
      else none
  | _ => none

/-- One iteration of the decompression reader's block loop
(tsq_threads.cpp lines 573-584, memory branch): 3-byte little-endian
size word, bit 23 the extensions flag, bits 0..22 the payload length;
rejected unless 0 < length ≤ TSQ_OUTPUT_SZ. -/
def readBlockM : List Nat → Option ((List Nat × Bool) × List Nat)
  | b0 :: b1 :: b2 :: rest =>
      let toRead0 := b0 % 256 ||| (b1 % 256) <<< 8 ||| (b2 % 256) <<< 16
      let ext := decide (toRead0 &&& 8388608 ≠ 0)
      let toRead := toRead0 &&& 8388607
      if 0 < toRead ∧ toRead ≤ TSQ_OUTPUT_SZ then
        some ((rest.take toRead, ext), rest.drop toRead)
      else none
  | _ => none

/-- The decompression reader's loop over all announced blocks
(tsq_threads.cpp lines 528-593). -/
def readBlocksM : Nat → List Nat → Option (List (List Nat × Bool) × List Nat)
  | 0, s => some ([], s)
  | n + 1, s =>
      match readBlockM s with
      | none => none
      | some (blk, rest) =>
          match readBlocksM n rest with
          | none => none
          | some (blks, fin) => some (blk :: blks, fin)

theorem lor_three_bytes (m : Nat) (hm : m < 16777216) :
    m % 256 ||| (m / 256 % 256) <<< 8 ||| (m / 65536 % 256) <<< 16 = m := by
  have e8 : (m / 256 % 256) <<< 8 = 2 ^ 8 * (m / 256 % 256) := by
    rw [Nat.shiftLeft_eq, Nat.mul_comm]
  have e16 : (m / 65536 % 256) <<< 16 = 2 ^ 16 * (m / 65536 % 256) := by
    rw [Nat.shiftLeft_eq, Nat.mul_comm]
  have h0 : m % 256 < 2 ^ 8 := by omega
  have h1 : m % 256 ||| (m / 256 % 256) <<< 8 = m % 65536 := by
    rw [e8, Nat.lor_comm, ← Nat.mul_add_lt_is_or h0]
    omega
  have h2 : m % 65536 < 2 ^ 16 := by omega
  rw [h1, e16, Nat.lor_comm, ← Nat.mul_add_lt_is_or h2]
  omega

theorem mask_low23 (n : Nat) (hn : n < 8388608) (e : Bool) :
    (if e then n ||| 8388608 else n) &&& 8388607 = n := by
  have hlow : n &&& 8388607 = n := by
    have := Nat.and_pow_two_sub_one_of_lt_two_pow (n := 23) hn
    norm_num at this
    exact this
  cases e
  · simpa using hlow
  · have hbit : 8388608 &&& 8388607 = 0 := by decide
    simp only [if_true]
    rw [Nat.and_distrib_right, hlow, hbit, Nat.or_zero]

theorem mask_bit23 (n : Nat) (hn : n < 8388608) (e : Bool) :
    decide ((if e then n ||| 8388608 else n) &&& 8388608 ≠ 0) = e := by
  have hz : n &&& 8388608 = 0 := by
    have h23 : n.testBit 23 = false :=
      Nat.testBit_lt_two_pow (by norm_num at hn ⊢; omega)
    have := Nat.and_two_pow n 23
    norm_num [h23] at this
    exact this
  cases e
  · simp [hz]
  · have hbit : 8388608 &&& 8388608 = 8388608 := by decide
    simp only [if_true, decide_eq_true_eq, Nat.and_distrib_right, hz, hbit]
    simp

theorem readBlockM_prepend (p : List Nat) (e : Bool) (rest : List Nat)
    (h0 : 0 < p.length) (h1 : p.length ≤ TSQ_OUTPUT_SZ) :
    readBlockM (blockHeader3 p.length e ++ p ++ rest) = some ((p, e), rest) := by
  have hlen : p.length < 8388608 := by
    simp only [TSQ_OUTPUT_SZ] at h1
    omega
  set m := if e then p.length ||| 8388608 else p.length with hmdef
  have hm24 : m < 16777216 := by
    rw [hmdef]
    cases e
    · simpa using by omega
    · simp only [if_true]
      have : (16777216 : Nat) = 2 ^ 24 := by norm_num
      rw [this]
      exact Nat.or_lt_two_pow (by omega) (by norm_num)
  have hshape : blockHeader3 p.length e ++ p ++ rest =
      m % 256 :: m / 256 % 256 :: m / 65536 % 256 :: (p ++ rest) := by
    simp [blockHeader3, hmdef]
  rw [hshape]
  simp only [readBlockM, Nat.mod_mod]
  rw [lor_three_bytes m hm24, mask_low23 p.length hlen e, mask_bit23 p.length hlen e]
  rw [if_pos ⟨h0, h1⟩]
  rw [List.take_left' rfl, List.drop_left' rfl]

theorem readBlocksM_writeBlocks :
    ∀ (blocks : List (List Nat × Bool)),
      (∀ pe ∈ blocks, 0 < (pe.1).length ∧ (pe.1).length ≤ TSQ_OUTPUT_SZ) →
      readBlocksM blocks.length (writeBlocks blocks) = some (blocks, []) := by
  intro blocks
  induction blocks with
  | nil => intro h; simp [readBlocksM, writeBlocks]
  | cons b t ih =>
    intro h
    rcases b with ⟨p, e⟩
    have hb := h (p, e) (by simp)
    have ht : ∀ pe ∈ t, 0 < (pe.1).length ∧ (pe.1).length ≤ TSQ_OUTPUT_SZ := by
      intro pe hpe
      exact h pe (by simp [hpe])
    simp only [List.length_cons, readBlocksM, writeBlocks]
    rw [readBlockM_prepend p e (writeBlocks t) hb.1 hb.2]
    simp [ih ht]

theorem leVal_leBytes4 (v : Nat) (hv : v < 4294967296) :
    leVal (leBytes 4 v) = v := by
  show leVal (v % 256 :: v / 256 % 256 :: v / 256 / 256 % 256 ::
    v / 256 / 256 / 256 % 256 :: []) = v
  simp only [leVal]
  omega

theorem leVal_leBytes8 (v : Nat) :
    leVal (leBytes 8 v) = v % 18446744073709551616 := by
  show leVal (v % 256 :: v / 256 % 256 :: v / 256 / 256 % 256 ::
    v / 256 / 256 / 256 % 256 :: v / 256 / 256 / 256 / 256 % 256 ::
    v / 256 / 256 / 256 / 256 / 256 % 256 ::
    v / 256 / 256 / 256 / 256 / 256 / 256 % 256 ::
    v / 256 / 256 / 256 / 256 / 256 / 256 / 256 % 256 :: []) = _
  simp only [leVal]
  omega

theorem readContainerHeader_writeContainer (inputSize : Nat)
    (blocks : List (List Nat × Bool)) :
    readContainerHeader (writeContainer inputSize blocks) =
      some (tsqNBlocks inputSize, inputSize % 18446744073709551616,
        writeBlocks blocks) := by
  have hnb : tsqNBlocks inputSize < 4294967296 := by
    have : tsqNBlocks inputSize < U32 := Nat.mod_lt _ (by norm_num [U32])
    simpa [U32] using this
  have h4 := leVal_leBytes4 (tsqNBlocks inputSize) hnb
  have h8 := leVal_leBytes8 inputSize
  set nb := tsqNBlocks inputSize with hnbdef
  show readContainerHeader (84 :: 83 :: 81 :: 49 ::
      nb % 256 :: nb / 256 % 256 :: nb / 256 / 256 % 256 ::
      nb / 256 / 256 / 256 % 256 ::
      inputSize % 256 :: inputSize / 256 % 256 ::
      inputSize / 256 / 256 % 256 :: inputSize / 256 / 256 / 256 % 256 ::
      inputSize / 256 / 256 / 256 / 256 % 256 ::
      inputSize / 256 / 256 / 256 / 256 / 256 % 256 ::
      inputSize / 256 / 256 / 256 / 256 / 256 / 256 % 256 ::
      inputSize / 256 / 256 / 256 / 256 / 256 / 256 / 256 % 256 ::
      writeBlocks blocks) = _
  simp only [readContainerHeader, leVal] at h4 h8 ⊢
  rw [if_pos (by norm_num)]
  refine congrArg some ?_
  refine Prod.ext ?_ (Prod.ext ?_ rfl) <;> simp only
  · omega
  · omega

theorem tsqNBlocks_ceil (inputSize : Nat) :
    tsqNBlocks inputSize =
      ((inputSize + TSQ_BLOCK_SZ - 1) / TSQ_BLOCK_SZ) % U32 := by
  simp only [tsqNBlocks, TSQ_BLOCK_SZ]
  refine congrArg (· % U32) ?_
  split <;> omega

/-- Two concrete blocks used by the C7 witness. -/
def exBlocks : List (List Nat × Bool) := [([10, 20, 30], true), ([7], false)]

/-- C7: the compression writer emits the 16-byte container header
("TSQ1", little-endian 32-bit block count = ceil(input_size/BLOCK_SZ)
truncated to uint32, little-endian 64-bit original size) followed by the
blocks, each prefixed by a 3-byte little-endian word carrying the length
in bits 0..22 and the extensions flag in bit 23 and followed by exactly
that many payload bytes; the decompression reader parses that same
layout back. -/
theorem c7_container_layout (inputSize : Nat)
    (blocks : List (List Nat × Bool))
    (hb : ∀ pe ∈ blocks, 0 < (pe.1).length ∧ (pe.1).length ≤ TSQ_OUTPUT_SZ) :
    readContainerHeader (writeContainer inputSize blocks) =
      some (tsqNBlocks inputSize, inputSize % 18446744073709551616,
        writeBlocks blocks) ∧
    readBlocksM blocks.length (writeBlocks blocks) = some (blocks, []) ∧
    tsqNBlocks inputSize =
      ((inputSize + TSQ_BLOCK_SZ - 1) / TSQ_BLOCK_SZ) % U32 :=
  ⟨readContainerHeader_writeContainer inputSize blocks,
   readBlocksM_writeBlocks blocks hb,
   tsqNBlocks_ceil inputSize⟩

/-- Witness for C7 at inputSize 5000000 (two blocks, one with the
extensions bit set). -/
theorem c7_container_layout_witness :
    (∀ pe ∈ exBlocks, 0 < (pe.1).length ∧ (pe.1).length ≤ TSQ_OUTPUT_SZ) ∧
    (readContainerHeader (writeContainer 5000000 exBlocks) =
        some (tsqNBlocks 5000000, 5000000 % 18446744073709551616,
          writeBlocks exBlocks) ∧
      readBlocksM exBlocks.length (writeBlocks exBlocks) =
        some (exBlocks, []) ∧
      tsqNBlocks 5000000 =
        ((5000000 + TSQ_BLOCK_SZ - 1) / TSQ_BLOCK_SZ) % U32) :=
  ⟨by decide, c7_container_layout 5000000 exBlocks (by decide)⟩

end TSQ
